import Mathlib

/-!
Verification development for the `wpm` typing-test program (src/wpm.py).

Strings are modelled as `List Char`, Python ints as `Int`/`Nat`, Python floats
as exact rationals `ℚ`, and Python exceptions as an `Except PyExc` result.
The text-wrapping pipeline models CPython's `textwrap.wrap(text, width,
drop_whitespace=False)` as called by `wrap_terminal_lines`: whitespace
munging (`expandtabs` + translation to spaces), the `wordsep_re` tokenizer
(ASCII reading of the `\w` / letter character classes), and the greedy
`_wrap_chunks` / `_handle_long_word` loop.  Loops are written with an explicit
fuel argument large enough for every input (proved where needed), so that all
definitions evaluate by `decide` / `rfl`.
-/

/-- Python exceptions raised by the modelled code: `ExitFailure(exit_code, msg)`
from wpm.py and `ValueError` from `textwrap`. -/
inductive PyExc where
  | exitFailure (exitCode : Nat) (msg : String)
  | valueError (msg : String)
deriving DecidableEq, Repr

/-- `os.EX_IOERR` on Linux. -/
def EX_IOERR : Nat := 74

/-- The six characters of CPython's `string.whitespace` as used by `textwrap`
(`_whitespace = '\t\n\x0b\x0c\r '`). -/
def isPyWs (c : Char) : Bool :=
  c = '\t' || c = '\n' || c = '\x0b' || c = '\x0c' || c = '\r' || c = ' '

/-- Python regex `\w` (ASCII reading): alphanumeric or underscore. -/
def isWordChar (c : Char) : Bool := c.isAlphanum || c = '_'

/-- Python regex `[^\d\W]` (a word character that is not a digit). -/
def isLetterChar (c : Char) : Bool := isWordChar c && !c.isDigit

/-- Python regex `[\w!"\'&.,?]` (`word_punct` in `textwrap`). -/
def isWordPunct (c : Char) : Bool :=
  isWordChar c || c = '!' || c = '"' || c = '\'' || c = '&' || c = '.' || c = ',' || c = '?'

/-- Whether a string starts with a `word_punct` character (used for the
single-character lookbehind on a reversed prefix). -/
def headIsWordPunct : List Char → Bool
  | p :: _ => isWordPunct p
  | [] => false

/-- Whether a string starts with a `\w` character. -/
def headIsWordChar : List Char → Bool
  | c :: _ => isWordChar c
  | [] => false

/-- Whether a string starts with a `[^\d\W]` character. -/
def headIsLetterChar : List Char → Bool
  | c :: _ => isLetterChar c
  | [] => false

/-- `str.expandtabs(8)`: each tab becomes spaces up to the next multiple of 8;
newline and carriage return reset the column counter. -/
def expandTabsGo : List Char → Nat → List Char
  | [], _ => []
  | c :: rest, col =>
    if c = '\t' then
      List.replicate (8 - col % 8) ' ' ++ expandTabsGo rest (col + (8 - col % 8))
    else if c = '\n' ∨ c = '\r' then
      c :: expandTabsGo rest 0
    else
      c :: expandTabsGo rest (col + 1)

def expandTabs (s : List Char) : List Char := expandTabsGo s 0

/-- `str.translate(unicode_whitespace_trans)`: map every `_whitespace`
character to a plain space. -/
def replaceWhitespace (s : List Char) : List Char :=
  s.map fun c => if isPyWs c then ' ' else c

/-- `TextWrapper._munge_whitespace` with `expand_tabs=True`,
`replace_whitespace=True` (the defaults used by `textwrap.wrap`). -/
def mungeWhitespace (s : List Char) : List Char :=
  replaceWhitespace (expandTabs s)

/-- Length of the leading run of hyphens. -/
def hyphenRun : List Char → Nat
  | [] => 0
  | c :: rest => if c = '-' then hyphenRun rest + 1 else 0

/-- The lookahead `(?=-{2,}\w)` of `wordsep_re` (and the body `-{2,} (?=\w)` of
its em-dash alternative): at least two hyphens followed by a word character. -/
def emDashLookahead (rest : List Char) : Bool :=
  decide (2 ≤ hyphenRun rest) && headIsWordChar (rest.drop (hyphenRun rest))

/-- The lookbehinds `(?<=[^\d\W]{2}-)` / `(?<=[^\d\W]-[^\d\W]-)` of the
hyphenated-word alternative, evaluated just before consuming the hyphen:
`ctx` is the reversed list of characters before the hyphen. -/
def lookbehindA : List Char → Bool
  | a :: b :: rest2 =>
      (isLetterChar a && isLetterChar b) ||
      (isLetterChar a && b = '-' && headIsLetterChar rest2)
  | _ => false

/-- The lookahead `(?=[^\d\W]-?[^\d\W])` of the hyphenated-word alternative,
evaluated just after the consumed hyphen. -/
def lookaheadA : List Char → Bool
  | a :: b :: rest2 =>
      isLetterChar a && (isLetterChar b || (b = '-' && headIsLetterChar rest2))
  | _ => false

/-- The lazy word alternative `[^ \t\n\x0b\x0c\r]+?(?: ... )` of `wordsep_re`:
starting from the already-consumed reversed chunk `acc` (nonempty, most recent
first), consume non-whitespace characters one at a time, stopping at the first
position where one of the three enders matches (in the regex's order:
hyphenated-word break, whitespace-or-end, em-dash lookahead).  `prevCtx` is
the reversed input before the chunk.  Returns the chunk (in order) and the
unconsumed rest. -/
def scanWord (prevCtx acc rest : List Char) : List Char × List Char :=
  match rest with
  | [] => (acc.reverse, [])
  | c :: rest =>
      if c = '-' ∧ lookbehindA (acc ++ prevCtx) ∧ lookaheadA rest then
        (('-' :: acc).reverse, rest)
      else if isPyWs c then
        (acc.reverse, c :: rest)
      else if headIsWordPunct acc ∧ emDashLookahead (c :: rest) then
        (acc.reverse, c :: rest)
      else
        scanWord prevCtx (c :: acc) rest

/-- One `wordsep_re.split` pass: the three top-level alternatives in order
(whitespace run, em-dash between words, word).  `fuel ≥ length rest` always
suffices since every produced chunk is nonempty. -/
def wordsepSplitFuel : Nat → List Char → List Char → List (List Char)
  | 0, _, _ => []
  | _ + 1, _, [] => []
  | fuel + 1, prevCtx, c :: rest =>
      if isPyWs c then
        ((c :: rest).takeWhile isPyWs) ::
          wordsepSplitFuel fuel (((c :: rest).takeWhile isPyWs).reverse ++ prevCtx)
            ((c :: rest).dropWhile isPyWs)
      else if headIsWordPunct prevCtx ∧ emDashLookahead (c :: rest) then
        ((c :: rest).take (hyphenRun (c :: rest))) ::
          wordsepSplitFuel fuel (((c :: rest).take (hyphenRun (c :: rest))).reverse ++ prevCtx)
            ((c :: rest).drop (hyphenRun (c :: rest)))
      else
        (scanWord prevCtx [c] rest).1 ::
          wordsepSplitFuel fuel ((scanWord prevCtx [c] rest).1.reverse ++ prevCtx)
            (scanWord prevCtx [c] rest).2

/-- `TextWrapper._split` applied to the munged text. -/
def wordsepSplit (text : List Char) : List (List Char) :=
  wordsepSplitFuel text.length [] text

/-- `TextWrapper._split_chunks` minus the munging: `wordsep_re.split` followed
by dropping empty strings (`[c for c in chunks if c]`). -/
def splitChunks (text : List Char) : List (List Char) :=
  (wordsepSplit text).filter fun c => !c.isEmpty

/-- The inner greedy loop of `_wrap_chunks`: take chunks while they fit in
`width`, starting from line length `curLen`.  Returns the taken chunks, the
resulting line length, and the remaining chunks. -/
def greedyTake (width : Nat) : List (List Char) → Nat → List (List Char) × Nat × List (List Char)
  | [], curLen => ([], curLen, [])
  | c :: rest, curLen =>
      if curLen + c.length ≤ width then
        ⟨c :: (greedyTake width rest (curLen + c.length)).1,
          (greedyTake width rest (curLen + c.length)).2⟩
      else
        ([], curLen, c :: rest)

/-- `str.rfind('-', 0, bound)`: the largest index `< bound` holding a hyphen. -/
def rfindHyphen (chunk : List Char) (bound : Nat) : Option Nat :=
  (List.range bound).foldl
    (fun acc i => if chunk.get? i = some '-' then some i else acc) none

/-- The slice point computed by `TextWrapper._handle_long_word` with
`break_long_words=True`, `break_on_hyphens=True`: `end = space_left`, except
that a usable hyphen before `space_left` moves the break just after it. -/
def handleLongWordEnd (chunk : List Char) (spaceLeft : Nat) : Nat :=
  if spaceLeft < chunk.length then
    match rfindHyphen chunk spaceLeft with
    | some h =>
        if 0 < h ∧ (chunk.take h).any (fun c => c ≠ '-') then h + 1 else spaceLeft
    | none => spaceLeft
  else spaceLeft

/-- Termination measure for the `_wrap_chunks` loop: every iteration either
consumes a chunk or strictly shortens the first chunk. -/
def chunksMeasure (chunks : List (List Char)) : Nat :=
  (chunks.map fun c => c.length + 1).sum

/-- The outer loop of `TextWrapper._wrap_chunks` as configured by
`textwrap.wrap(text, width, drop_whitespace=False)` (no indents, no
`max_lines`): greedily fill a line, hard-break an oversized head chunk via
`_handle_long_word`, emit the line if nonempty, repeat.  `fuel ≥
chunksMeasure chunks` always suffices. -/
def wrapChunksFuel (width : Nat) : Nat → List (List Char) → List (List Char)
  | 0, _ => []
  | _ + 1, [] => []
  | fuel + 1, c0 :: cs =>
      let g := greedyTake width (c0 :: cs) 0
      if g.2.2 = [] then
        if g.1 = [] then [] else [g.1.flatten]
      else
        let c := g.2.2.headD []
        if width < c.length then
          let e := handleLongWordEnd c (if width < 1 then 1 else width - g.2.1)
          let cur2 := g.1 ++ [c.take e]
          let tail := wrapChunksFuel width fuel (c.drop e :: g.2.2.tail)
          if cur2 = [] then tail else cur2.flatten :: tail
        else
          let tail := wrapChunksFuel width fuel g.2.2
          if g.1 = [] then tail else g.1.flatten :: tail

def wrapChunks (width : Nat) (chunks : List (List Char)) : List (List Char) :=
  wrapChunksFuel width (chunksMeasure chunks) chunks

/-- `textwrap.wrap(text, width, drop_whitespace=False)`: munge, split, wrap.
`_wrap_chunks` raises `ValueError` when `width <= 0`. -/
def textwrap_wrap (width : Nat) (text : List Char) : Except PyExc (List (List Char)) :=
  if width = 0 then
    .error (.valueError "invalid width 0 (must be > 0)")
  else
    .ok (wrapChunks width (splitChunks (mungeWhitespace text)))

/-- `TerminalDimensions` of wpm.py: usable text rows and columns. -/
structure TerminalDimensions where
  rows : Nat
  columns : Nat
deriving DecidableEq, Repr

/-- `wrap_terminal_lines` of wpm.py: wrap at the terminal's column count,
truncate to the usable rows, and pair with the total visible length. -/
def wrap_terminal_lines (input_str : List Char) (term_dims : TerminalDimensions) :
    Except PyExc (List (List Char) × Nat) :=
  (textwrap_wrap term_dims.columns input_str).map fun ls =>
    ((ls.take term_dims.rows), ((ls.take term_dims.rows).map List.length).sum)

/-- The enumeration loop of `calculate_row_column`, carrying the current row. -/
def calcRowColGo : List (List Char) → Int → Nat → Except PyExc (Nat × Int)
  | [], _, _ =>
      .error (.exitFailure EX_IOERR "Tried to access (row, column) out of terminal bounds")
  | wrapped_line :: rest, remaining_index, row =>
      if remaining_index < wrapped_line.length then
        .ok (row, remaining_index)
      else
        calcRowColGo rest (remaining_index - wrapped_line.length) (row + 1)

/-- `calculate_row_column` of wpm.py: walk the wrapped lines accumulating
lengths; raise `ExitFailure(os.EX_IOERR, ...)` past the end. -/
def calculate_row_column (wrapped_terminal_lines : List (List Char)) (index : Int) :
    Except PyExc (Nat × Int) :=
  calcRowColGo wrapped_terminal_lines index 0

/-- `CHARS_PER_WORD = 5.0`. -/
def CHARS_PER_WORD : ℚ := 5

/-- `SECONDS_PER_MINUTE = 60.0`. -/
def SECONDS_PER_MINUTE : ℚ := 60

/-- `minutes_elapsed` of wpm.py. -/
def minutes_elapsed (seconds_elapsed : ℚ) : ℚ :=
  seconds_elapsed / SECONDS_PER_MINUTE

/-- Python `int()` applied to a (here: exactly represented) float: truncation
toward zero. -/
def ratTrunc (q : ℚ) : Int :=
  if 0 ≤ q then ⌊q⌋ else ⌈q⌉

/-- `calculate_gross_wpm` of wpm.py. -/
def calculate_gross_wpm (num_correct_chars_typed : Int) (seconds_elapsed : ℚ) : Int :=
  ratTrunc (((num_correct_chars_typed : ℚ) / CHARS_PER_WORD) / minutes_elapsed seconds_elapsed)

/-- `calculate_net_wpm` of wpm.py. -/
def calculate_net_wpm (num_incorrect_chars_typed num_correct_chars_typed : Int)
    (seconds_elapsed : ℚ) : Int :=
  max 0 (ratTrunc ((calculate_gross_wpm num_correct_chars_typed seconds_elapsed : ℚ) -
    (num_incorrect_chars_typed : ℚ) / minutes_elapsed seconds_elapsed))

/-- `is_typing_test_finished` of wpm.py. -/
def is_typing_test_finished (input_str : List Char) (term_dims : TerminalDimensions)
    (next_char_index : Int) (seconds_elapsed : ℚ) : Except PyExc Bool :=
  (wrap_terminal_lines input_str term_dims).map fun p =>
    decide (60 ≤ seconds_elapsed) ||
      decide (min (p.2 : Int) (input_str.length : Int) ≤ next_char_index)

/-- The mutable session state of `run_curses`: the cursor index and the list
of indices typed incorrectly. -/
structure Session where
  next_char_index : Int
  error_char_indices : List Int
deriving DecidableEq, Repr

/-- One `getch` result, classified as the `run_curses` loop does:
`GETCH_NO_INPUT` (-1), `curses.KEY_RESIZE`, backspace (`GETCH_KEY_DELETE`
or `curses.KEY_BACKSPACE`), or any other key code. -/
inductive UserInput where
  | noInput
  | resize
  | backspace
  | char (code : Int)
deriving DecidableEq, Repr

/-- Python string indexing `s[i]`: negative indices count from the end;
out-of-range raises `IndexError` (modelled as `none`). -/
def pyStrIndex (s : List Char) (i : Int) : Option Char :=
  if i < 0 then
    if i + s.length < 0 then none else s.get? (i + s.length).toNat
  else
    s.get? i.toNat

/-- The keystroke dispatch of the `run_curses` loop body (wpm.py lines
128-139): no-input and resize events are skipped; backspace moves back one
position (clamped at 0) and un-records that index if it was recorded; any
other key is judged against `input_str[next_char_index]` (`none` models the
`IndexError` were the index out of range) and always advances the cursor. -/
def handle_keystroke (input_str : List Char) (u : UserInput) (s : Session) : Option Session :=
  match u with
  | .noInput => some s
  | .resize => some s
  | .backspace =>
      some { next_char_index := max 0 (s.next_char_index - 1),
             error_char_indices :=
               if max 0 (s.next_char_index - 1) ∈ s.error_char_indices then
                 s.error_char_indices.erase (max 0 (s.next_char_index - 1))
               else
                 s.error_char_indices }
  | .char code =>
      (pyStrIndex input_str s.next_char_index).map fun correct_next_char =>
        { next_char_index := s.next_char_index + 1,
          error_char_indices :=
            if code ≠ (correct_next_char.toNat : Int) then
              s.error_char_indices ++ [s.next_char_index]
            else
              s.error_char_indices }

/-- Session states reachable from `run_curses`'s initial state
(`next_char_index, error_char_indices = 0, []`) by keystroke-handling steps. -/
inductive Reachable (input_str : List Char) : Session → Prop where
  | init : Reachable input_str ⟨0, []⟩
  | step {s s' : Session} {u : UserInput} :
      Reachable input_str s → handle_keystroke input_str u s = some s' →
      Reachable input_str s'

/-! ### Helper lemmas: whitespace munging -/

theorem expandTabsGo_eq_self (s : List Char) (hws : ∀ c ∈ s, isPyWs c = true → c = ' ') :
    ∀ col, expandTabsGo s col = s := by
  induction s with
  | nil => intro col; rfl
  | cons c rest ih =>
      intro col
      have hct : ¬c = '\t' := by
        intro h; subst h
        exact absurd (hws '\t' (by simp) (by decide)) (by decide)
      have hnr : ¬(c = '\n' ∨ c = '\r') := by
        rintro (h | h) <;> subst h
        · exact absurd (hws '\n' (by simp) (by decide)) (by decide)
        · exact absurd (hws '\r' (by simp) (by decide)) (by decide)
      rw [expandTabsGo, if_neg hct, if_neg hnr,
        ih (fun c hc hw => hws c (by simp [hc]) hw) (col + 1)]

theorem replaceWhitespace_eq_self (s : List Char) (hws : ∀ c ∈ s, isPyWs c = true → c = ' ') :
    replaceWhitespace s = s := by
  unfold replaceWhitespace
  conv_rhs => rw [← List.map_id s]
  refine List.map_congr_left ?_
  intro c hc
  by_cases h : isPyWs c = true
  · simp [h, hws c hc h]
  · simp [h]

theorem mungeWhitespace_eq_self (s : List Char) (hws : ∀ c ∈ s, isPyWs c = true → c = ' ') :
    mungeWhitespace s = s := by
  unfold mungeWhitespace expandTabs
  rw [expandTabsGo_eq_self s hws 0, replaceWhitespace_eq_self s hws]

/-! ### Helper lemmas: the wordsep tokenizer -/

theorem scanWord_spec (pc : List Char) :
    ∀ (rest acc : List Char),
      (scanWord pc acc rest).1 ++ (scanWord pc acc rest).2 = acc.reverse ++ rest ∧
      acc.length ≤ (scanWord pc acc rest).1.length := by
  intro rest
  induction rest with
  | nil => intro acc; simp [scanWord]
  | cons c rest ih =>
      intro acc
      rw [scanWord]
      split
      · next h =>
          obtain ⟨hc, -, -⟩ := h
          subst hc
          exact ⟨by simp, by simp⟩
      · split
        · exact ⟨by simp, by simp⟩
        · split
          · exact ⟨by simp, by simp⟩
          · refine ⟨by rw [(ih (c :: acc)).1]; simp, ?_⟩
            calc acc.length ≤ (c :: acc).length := by simp
              _ ≤ (scanWord pc (c :: acc) rest).1.length := (ih (c :: acc)).2

theorem emDashLookahead_two_le (s : List Char) (h : emDashLookahead s = true) :
    2 ≤ hyphenRun s := by
  unfold emDashLookahead at h
  simp only [Bool.and_eq_true, decide_eq_true_eq] at h
  exact h.1

theorem wordsepSplitFuel_flatten :
    ∀ (fuel : Nat) (pc s : List Char), s.length ≤ fuel →
      (wordsepSplitFuel fuel pc s).flatten = s := by
  intro fuel
  induction fuel with
  | zero =>
      intro pc s hs
      have h : s = [] := List.length_eq_zero.mp (Nat.le_zero.mp hs)
      subst h; rfl
  | succ fuel ih =>
      intro pc s hs
      match s with
      | [] => rfl
      | c :: rest =>
          simp only [List.length_cons] at hs
          rw [wordsepSplitFuel]
          split
          · next hws =>
              have hlen : ((c :: rest).dropWhile isPyWs).length ≤ fuel := by
                have h1 : ((c :: rest).dropWhile isPyWs).length ≤ rest.length := by
                  rw [List.dropWhile_cons_of_pos hws]
                  exact (List.dropWhile_sublist isPyWs).length_le
                omega
              rw [List.flatten_cons, ih _ _ hlen, List.takeWhile_append_dropWhile]
          · split
            · next hcond =>
                have hm : 2 ≤ hyphenRun (c :: rest) := emDashLookahead_two_le _ hcond.2
                have hlen : ((c :: rest).drop (hyphenRun (c :: rest))).length ≤ fuel := by
                  simp only [List.length_drop, List.length_cons]
                  omega
                rw [List.flatten_cons, ih _ _ hlen, List.take_append_drop]
            · have hsp := scanWord_spec pc rest [c]
              have hlen : (scanWord pc [c] rest).2.length ≤ fuel := by
                have h1 : (scanWord pc [c] rest).1.length + (scanWord pc [c] rest).2.length
                    = rest.length + 1 := by
                  have h2 := congrArg List.length hsp.1
                  simpa using h2
                have h2 : 1 ≤ (scanWord pc [c] rest).1.length := hsp.2
                omega
              rw [List.flatten_cons, ih _ _ hlen]
              simpa using hsp.1

theorem wordsepSplit_flatten (text : List Char) : (wordsepSplit text).flatten = text :=
  wordsepSplitFuel_flatten text.length [] text le_rfl

theorem flatten_filter_nonempty (l : List (List Char)) :
    (l.filter fun c => !c.isEmpty).flatten = l.flatten := by
  induction l with
  | nil => rfl
  | cons c rest ih =>
      by_cases h : c.isEmpty
      · have hc : c = [] := List.isEmpty_iff.mp h
        subst hc
        simpa using ih
      · rw [List.filter_cons_of_pos (by simp [h]), List.flatten_cons, ih, List.flatten_cons]

theorem splitChunks_flatten (text : List Char) : (splitChunks text).flatten = text := by
  unfold splitChunks
  rw [flatten_filter_nonempty, wordsepSplit_flatten]

/-! ### Helper lemmas: the greedy wrap loop -/

theorem greedyTake_append (width : Nat) :
    ∀ (chunks : List (List Char)) (n : Nat),
      (greedyTake width chunks n).1 ++ (greedyTake width chunks n).2.2 = chunks := by
  intro chunks
  induction chunks with
  | nil => intro n; simp [greedyTake]
  | cons c rest ih =>
      intro n
      rw [greedyTake]
      split
      · simpa using ih (n + c.length)
      · simp

theorem greedyTake_len (width : Nat) :
    ∀ (chunks : List (List Char)) (n : Nat),
      (greedyTake width chunks n).2.1 = n + ((greedyTake width chunks n).1.map List.length).sum := by
  intro chunks
  induction chunks with
  | nil => intro n; simp [greedyTake]
  | cons c rest ih =>
      intro n
      rw [greedyTake]
      split
      · have h := ih (n + c.length)
        simpa [Nat.add_assoc] using h
      · simp

theorem greedyTake_le (width : Nat) :
    ∀ (chunks : List (List Char)) (n : Nat), n ≤ width → (greedyTake width chunks n).2.1 ≤ width := by
  intro chunks
  induction chunks with
  | nil => intro n hn; simpa [greedyTake] using hn
  | cons c rest ih =>
      intro n hn
      rw [greedyTake]
      split
      · next hfit => exact ih (n + c.length) hfit
      · simpa using hn

theorem greedyTake_nofit (width : Nat) :
    ∀ (chunks : List (List Char)) (n : Nat) (c : List Char) (rest : List (List Char)),
      (greedyTake width chunks n).2.2 = c :: rest →
      width < (greedyTake width chunks n).2.1 + c.length := by
  intro chunks
  induction chunks with
  | nil => intro n c rest h; simp [greedyTake] at h
  | cons c0 rest0 ih =>
      intro n c rest h
      by_cases hfit : n + c0.length ≤ width
      · rw [greedyTake, if_pos hfit] at h ⊢
        exact ih (n + c0.length) c rest h
      · rw [greedyTake, if_neg hfit] at h ⊢
        have h2 : c0 :: rest0 = c :: rest := h
        have hc : c0 = c := (List.cons.injEq .. |>.mp h2).1
        show width < n + c.length
        subst hc
        omega

theorem rfindHyphen_mem_aux (chunk : List Char) :
    ∀ (l : List Nat) (acc : Option Nat) (h : Nat),
      l.foldl (fun acc i => if chunk.get? i = some '-' then some i else acc) acc = some h →
      acc = some h ∨ h ∈ l := by
  intro l
  induction l with
  | nil => intro acc h hf; exact Or.inl hf
  | cons i rest ih =>
      intro acc h hf
      rw [List.foldl_cons] at hf
      rcases ih _ _ hf with h1 | h1
      · by_cases hc : chunk.get? i = some '-'
        · rw [if_pos hc] at h1
          have : h = i := (Option.some.injEq .. |>.mp h1).symm
          exact Or.inr (by simp [this])
        · rw [if_neg hc] at h1
          exact Or.inl h1
      · exact Or.inr (by simp [h1])

theorem rfindHyphen_lt (chunk : List Char) (bound h : Nat) :
    rfindHyphen chunk bound = some h → h < bound := by
  intro hf
  rcases rfindHyphen_mem_aux chunk (List.range bound) none h hf with h1 | h1
  · exact absurd h1 (by simp)
  · exact List.mem_range.mp h1

theorem handleLongWordEnd_le (chunk : List Char) (sl : Nat) :
    handleLongWordEnd chunk sl ≤ sl := by
  unfold handleLongWordEnd
  split
  · split
    · next h hh =>
        split
        · have := rfindHyphen_lt chunk sl h hh
          omega
        · exact le_rfl
    · exact le_rfl
  · exact le_rfl

theorem handleLongWordEnd_pos (chunk : List Char) (sl : Nat) (hsl : 1 ≤ sl) :
    1 ≤ handleLongWordEnd chunk sl := by
  unfold handleLongWordEnd
  split
  · split
    · split
      · omega
      · exact hsl
    · exact hsl
  · exact hsl

theorem chunksMeasure_cons (c : List Char) (rest : List (List Char)) :
    chunksMeasure (c :: rest) = c.length + 1 + chunksMeasure rest := by
  simp [chunksMeasure]

theorem chunksMeasure_append (a b : List (List Char)) :
    chunksMeasure (a ++ b) = chunksMeasure a + chunksMeasure b := by
  simp [chunksMeasure]

theorem chunksMeasure_eq_zero {chunks : List (List Char)} (h : chunksMeasure chunks = 0) :
    chunks = [] := by
  cases chunks with
  | nil => rfl
  | cons c rest => rw [chunksMeasure_cons] at h; omega

theorem wrapChunksFuel_spec (width : Nat) :
    ∀ (fuel : Nat) (chunks : List (List Char)), chunksMeasure chunks ≤ fuel →
      (wrapChunksFuel width fuel chunks).flatten = chunks.flatten ∧
      (1 ≤ width → ∀ l ∈ wrapChunksFuel width fuel chunks, l.length ≤ width) := by
  intro fuel
  induction fuel with
  | zero =>
      intro chunks hm
      rw [chunksMeasure_eq_zero (Nat.le_zero.mp hm)]
      exact ⟨rfl, by intro _ l hl; simp [wrapChunksFuel] at hl⟩
  | succ fuel ih =>
      intro chunks hm
      match chunks with
      | [] => exact ⟨rfl, by intro _ l hl; simp [wrapChunksFuel] at hl⟩
      | c0 :: cs =>
          rcases hg : greedyTake width (c0 :: cs) 0 with ⟨cur, curLen, rest⟩
          have happ : cur ++ rest = c0 :: cs := by
            have h := greedyTake_append width (c0 :: cs) 0
            rw [hg] at h; exact h
          have hclen : curLen = (cur.map List.length).sum := by
            have h := greedyTake_len width (c0 :: cs) 0
            rw [hg] at h; simpa using h
          have hcle : curLen ≤ width := by
            have h := greedyTake_le width (c0 :: cs) 0 (Nat.zero_le width)
            rw [hg] at h; exact h
          have hflatlen : cur.flatten.length = curLen := by
            rw [hclen, List.length_flatten]
          rw [wrapChunksFuel, hg]
          dsimp only
          cases rest with
          | nil =>
              rw [if_pos rfl]
              have hc : cur = c0 :: cs := by simpa using happ
              have hcne : ¬cur = [] := by rw [hc]; simp
              rw [if_neg hcne]
              refine ⟨by simp [hc], ?_⟩
              intro _ l hl
              rw [List.mem_singleton] at hl
              subst hl
              rw [hflatlen]
              exact hcle
          | cons c rest2 =>
              rw [if_neg (by simp)]
              have hnofit : width < curLen + c.length := by
                have h := greedyTake_nofit width (c0 :: cs) 0 c rest2 (by rw [hg])
                rw [hg] at h; exact h
              have hmc : chunksMeasure (c0 :: cs)
                  = chunksMeasure cur + (c.length + 1 + chunksMeasure rest2) := by
                rw [← happ, chunksMeasure_append, chunksMeasure_cons]
              simp only [List.headD_cons, List.tail_cons]
              by_cases hwc : width < c.length
              · rw [if_pos hwc]
                have hsl : 1 ≤ (if width < 1 then 1 else width - curLen) ∨ cur ≠ [] := by
                  by_cases hcur0 : cur = []
                  · left
                    split
                    · exact le_rfl
                    · next hw1 =>
                        have : curLen = 0 := by rw [hclen, hcur0]; simp
                        omega
                  · right; exact hcur0
                have hdec : chunksMeasure
                    (c.drop (handleLongWordEnd c (if width < 1 then 1 else width - curLen))
                      :: rest2) ≤ fuel := by
                  rw [chunksMeasure_cons, List.length_drop]
                  rcases hsl with hsl | hsl
                  · have he1 : 1 ≤ handleLongWordEnd c (if width < 1 then 1 else width - curLen) :=
                      handleLongWordEnd_pos _ _ hsl
                    have hcl1 : 1 ≤ c.length := by omega
                    omega
                  · have hcm1 : 1 ≤ chunksMeasure cur := by
                      cases cur with
                      | nil => exact absurd rfl hsl
                      | cons x xs => rw [chunksMeasure_cons]; omega
                    omega
                have hih := ih _ hdec
                have hne2 : ¬cur ++ [c.take (handleLongWordEnd c
                    (if width < 1 then 1 else width - curLen))] = [] := by simp
                rw [if_neg hne2]
                constructor
                · rw [List.flatten_cons, hih.1, ← happ]
                  simp only [List.flatten_append, List.flatten_cons, List.flatten_nil,
                    List.append_nil, List.append_assoc]
                  congr 1
                  rw [← List.append_assoc, List.take_append_drop]
                · intro hw1 l hl
                  rw [List.mem_cons] at hl
                  rcases hl with hl | hl
                  · subst hl
                    have hif : (if width < 1 then 1 else width - curLen) = width - curLen := by
                      rw [if_neg (by omega)]
                    rw [hif]
                    have hele : handleLongWordEnd c (width - curLen) ≤ width - curLen :=
                      handleLongWordEnd_le _ _
                    rw [List.flatten_append, List.length_append, hflatlen]
                    simp only [List.flatten_cons, List.flatten_nil, List.append_nil,
                      List.length_take]
                    omega
                  · exact hih.2 hw1 l hl
              · rw [if_neg hwc]
                have hcur : ¬cur = [] := by
                  intro h0
                  have : curLen = 0 := by rw [hclen, h0]; simp
                  omega
                have hcm1 : 1 ≤ chunksMeasure cur := by
                  cases cur with
                  | nil => exact absurd rfl hcur
                  | cons x xs => rw [chunksMeasure_cons]; omega
                have hdec : chunksMeasure (c :: rest2) ≤ fuel := by
                  rw [chunksMeasure_cons]
                  omega
                have hih := ih _ hdec
                rw [if_neg hcur]
                constructor
                · rw [List.flatten_cons, hih.1, ← happ]
                  simp [List.flatten_append]
                · intro hw1 l hl
                  rw [List.mem_cons] at hl
                  rcases hl with hl | hl
                  · subst hl
                    rw [hflatlen]
                    exact hcle
                  · exact hih.2 hw1 l hl

/-! ### Helper lemmas: the full wrap pipeline -/

theorem wrapChunks_flatten (width : Nat) (chunks : List (List Char)) :
    (wrapChunks width chunks).flatten = chunks.flatten :=
  (wrapChunksFuel_spec width _ chunks le_rfl).1

theorem wrapChunks_length_le (width : Nat) (hw : 1 ≤ width) (chunks : List (List Char)) :
    ∀ l ∈ wrapChunks width chunks, l.length ≤ width :=
  (wrapChunksFuel_spec width _ chunks le_rfl).2 hw

theorem textwrap_wrap_eq (width : Nat) (hw : 1 ≤ width) (text : List Char) :
    textwrap_wrap width text = .ok (wrapChunks width (splitChunks (mungeWhitespace text))) := by
  unfold textwrap_wrap
  rw [if_neg (by omega)]

theorem wrap_terminal_lines_sum {text : List Char} {d : TerminalDimensions}
    {lines : List (List Char)} {W : Nat} (h : wrap_terminal_lines text d = .ok (lines, W)) :
    W = (lines.map List.length).sum := by
  unfold wrap_terminal_lines at h
  cases htw : textwrap_wrap d.columns text with
  | error e => rw [htw] at h; simp [Except.map] at h
  | ok ls =>
      rw [htw] at h
      simp only [Except.map] at h
      obtain ⟨h1, h2⟩ := Prod.mk.injEq .. |>.mp (Except.ok.injEq .. |>.mp h)
      rw [← h1, ← h2]

theorem is_typing_test_finished_eq {text : List Char} {d : TerminalDimensions}
    {lines : List (List Char)} {W : Nat} (h : wrap_terminal_lines text d = .ok (lines, W))
    (next : Int) (secs : ℚ) :
    is_typing_test_finished text d next secs =
      .ok (decide (60 ≤ secs) || decide (min (W : Int) (text.length : Int) ≤ next)) := by
  unfold is_typing_test_finished
  rw [h]
  simp only [Except.map]

/-! ### Helper lemmas: locating a linear index in the wrapped lines -/

theorem calcRowColGo_ok (lines : List (List Char)) :
    ∀ (n row : Nat), n < (lines.map List.length).sum →
      ∃ (r c : Nat) (L : List Char),
        calcRowColGo lines (n : Int) row = .ok (row + r, (c : Int)) ∧
        lines[r]? = some L ∧ c < L.length ∧ L[c]? = lines.flatten[n]? := by
  induction lines with
  | nil => intro n row h; simp at h
  | cons l rest ih =>
      intro n row h
      rw [calcRowColGo]
      by_cases hn : n < l.length
      · rw [if_pos (by exact_mod_cast hn)]
        refine ⟨0, n, l, by rw [Nat.add_zero], by simp, hn, ?_⟩
        rw [List.flatten_cons, List.getElem?_append, if_pos hn]
      · rw [if_neg (by push_neg at hn ⊢; exact_mod_cast hn)]
        have hsum : n - l.length < (rest.map List.length).sum := by
          simp only [List.map_cons, List.sum_cons] at h
          omega
        obtain ⟨r, c, L, h1, h2, h3, h4⟩ := ih (n - l.length) (row + 1) hsum
        refine ⟨r + 1, c, L, ?_, by simpa using h2, h3, ?_⟩
        · have hcast : (n : Int) - (l.length : Int) = ((n - l.length : Nat) : Int) := by omega
          rw [hcast, h1]
          have harith : row + 1 + r = row + (r + 1) := by omega
          rw [harith]
        · rw [List.flatten_cons, List.getElem?_append_right (by omega)]
          exact h4

theorem calcRowColGo_err (lines : List (List Char)) :
    ∀ (i : Int) (row : Nat), ((lines.map List.length).sum : Int) ≤ i →
      calcRowColGo lines i row =
        .error (.exitFailure EX_IOERR "Tried to access (row, column) out of terminal bounds") := by
  induction lines with
  | nil => intro i row _; rfl
  | cons l rest ih =>
      intro i row h
      simp only [List.map_cons, List.sum_cons] at h
      rw [Nat.cast_add] at h
      have hsum : (0 : Int) ≤ ((rest.map List.length).sum : Int) := Int.natCast_nonneg _
      rw [calcRowColGo]
      rw [if_neg (by omega)]
      exact ih (i - l.length) (row + 1) (by omega)

/-! ### Helper lemmas: the session state machine -/

theorem pyStrIndex_lt {s : List Char} {i : Int} {c : Char} (h0 : 0 ≤ i)
    (h : pyStrIndex s i = some c) : i < (s.length : Int) := by
  unfold pyStrIndex at h
  rw [if_neg (not_lt.mpr h0)] at h
  by_contra hge
  push_neg at hge
  rw [List.get?_eq_none.mpr (by omega)] at h
  exact Option.noConfusion h

theorem reachable_invariant {input_str : List Char} {s : Session}
    (h : Reachable input_str s) :
    s.error_char_indices.Nodup ∧ 0 ≤ s.next_char_index ∧
      s.next_char_index ≤ (input_str.length : Int) ∧
      ∀ e ∈ s.error_char_indices, 0 ≤ e ∧ e < s.next_char_index := by
  induction h with
  | init => simp
  | @step s s' u hr hstep ih =>
      obtain ⟨hnd, h0, hle, herr⟩ := ih
      cases u with
      | noInput =>
          obtain rfl : s = s' := Option.some.injEq .. |>.mp hstep
          exact ⟨hnd, h0, hle, herr⟩
      | resize =>
          obtain rfl : s = s' := Option.some.injEq .. |>.mp hstep
          exact ⟨hnd, h0, hle, herr⟩
      | backspace =>
          simp only [handle_keystroke] at hstep
          obtain rfl := Option.some.injEq .. |>.mp hstep
          constructor
          · split
            · exact hnd.erase _
            · exact hnd
          refine ⟨by simp only; omega, by simp only; omega, ?_⟩
          intro e he
          simp only at he ⊢
          have hmem : e ∈ s.error_char_indices := by
            split at he
            · exact List.mem_of_mem_erase he
            · exact he
          have hbound := herr e hmem
          by_cases hnx : s.next_char_index ≤ 0
          · have : e < 0 := by omega
            omega
          · have hprev : max 0 (s.next_char_index - 1) = s.next_char_index - 1 := by omega
            by_cases hin : max 0 (s.next_char_index - 1) ∈ s.error_char_indices
            · rw [if_pos hin] at he
              have hne := ((List.Nodup.mem_erase_iff hnd).mp he).1
              omega
            · rw [if_neg hin] at he
              have hne : e ≠ max 0 (s.next_char_index - 1) := by
                intro hcontra
                exact hin (hcontra ▸ he)
              omega
      | char code =>
          simp only [handle_keystroke] at hstep
          rw [Option.map_eq_some'] at hstep
          obtain ⟨ch, hch, rfl⟩ := hstep
          have hlt : s.next_char_index < (input_str.length : Int) := pyStrIndex_lt h0 hch
          have hnotmem : s.next_char_index ∉ s.error_char_indices := by
            intro hm
            have := herr _ hm
            omega
          refine ⟨?_, by simp only; omega, by simp only; omega, ?_⟩
          · simp only
            split
            · simp [List.nodup_append, hnd, hnotmem]
            · exact hnd
          · intro e he
            simp only at he ⊢
            split at he
            · rw [List.mem_append, List.mem_singleton] at he
              rcases he with he | he
              · have := herr e he
                omega
              · omega
            · have := herr e he
              omega

/-! ### Helper lemmas: the WPM calculator -/

theorem ratTrunc_of_nonneg {q : ℚ} (h : 0 ≤ q) : ratTrunc q = ⌊q⌋ := if_pos h

theorem max_zero_ratTrunc (q : ℚ) : max 0 (ratTrunc q) = max 0 ⌊q⌋ := by
  unfold ratTrunc
  split
  · rfl
  · next h =>
      push_neg at h
      have h1 : ⌈q⌉ ≤ 0 := by
        rw [Int.ceil_le]
        exact_mod_cast h.le
      have h2 : ⌊q⌋ ≤ ⌈q⌉ := Int.floor_le_ceil q
      omega

/-! ### Claims -/

/-- C9: for every non-negative correct-character count and positive elapsed
time, `calculate_gross_wpm` computes
`⌊(correct_count / 5) / (elapsed_seconds / 60)⌋`; in particular 25 correct
characters in 30 seconds give a gross WPM of 10. -/
theorem C9_gross_wpm_floor (num_correct_chars_typed : Int) (seconds_elapsed : ℚ)
    (hc : 0 ≤ num_correct_chars_typed) (hs : 0 < seconds_elapsed) :
    calculate_gross_wpm num_correct_chars_typed seconds_elapsed =
      ⌊((num_correct_chars_typed : ℚ) / 5) / (seconds_elapsed / 60)⌋ ∧
    calculate_gross_wpm 25 30 = 10 := by
  constructor
  · unfold calculate_gross_wpm minutes_elapsed CHARS_PER_WORD SECONDS_PER_MINUTE
    rw [ratTrunc_of_nonneg]
    apply div_nonneg
    · exact div_nonneg (by exact_mod_cast hc) (by norm_num)
    · exact div_nonneg hs.le (by norm_num)
  · norm_num [calculate_gross_wpm, ratTrunc, minutes_elapsed, CHARS_PER_WORD,
      SECONDS_PER_MINUTE]

/-- Witness for C9 at correct_count = 25, elapsed_seconds = 30. -/
theorem C9_gross_wpm_floor_witness :
    calculate_gross_wpm 25 30 = ⌊(((25 : Int) : ℚ) / 5) / ((30 : ℚ) / 60)⌋ ∧
    calculate_gross_wpm 25 30 = 10 :=
  C9_gross_wpm_floor 25 30 (by norm_num) (by norm_num)

/-- C4: for non-negative counts and positive elapsed time, `calculate_net_wpm`
computes `max 0 ⌊gross_wpm - incorrect_count / (elapsed_seconds / 60)⌋` (the
`int()` truncation toward zero agrees with the floor under the outer
`max 0`), hence is never negative; in particular 25 correct, 1 incorrect and
30 seconds give a net WPM of 8. -/
theorem C4_net_wpm_floor (num_incorrect_chars_typed num_correct_chars_typed : Int)
    (seconds_elapsed : ℚ) (hi : 0 ≤ num_incorrect_chars_typed)
    (hc : 0 ≤ num_correct_chars_typed) (hs : 0 < seconds_elapsed) :
    calculate_net_wpm num_incorrect_chars_typed num_correct_chars_typed seconds_elapsed =
      max 0 ⌊(calculate_gross_wpm num_correct_chars_typed seconds_elapsed : ℚ) -
        (num_incorrect_chars_typed : ℚ) / (seconds_elapsed / 60)⌋ ∧
    0 ≤ calculate_net_wpm num_incorrect_chars_typed num_correct_chars_typed seconds_elapsed ∧
    calculate_net_wpm 1 25 30 = 8 := by
  refine ⟨?_, ?_, ?_⟩
  · unfold calculate_net_wpm minutes_elapsed SECONDS_PER_MINUTE
    exact max_zero_ratTrunc _
  · unfold calculate_net_wpm
    exact le_max_left 0 _
  · norm_num [calculate_net_wpm, calculate_gross_wpm, ratTrunc, minutes_elapsed,
      CHARS_PER_WORD, SECONDS_PER_MINUTE]

/-- Witness for C4 at incorrect_count = 1, correct_count = 25,
elapsed_seconds = 30. -/
theorem C4_net_wpm_floor_witness :
    calculate_net_wpm 1 25 30 =
      max 0 ⌊(calculate_gross_wpm 25 30 : ℚ) - ((1 : Int) : ℚ) / ((30 : ℚ) / 60)⌋ ∧
    0 ≤ calculate_net_wpm 1 25 30 ∧
    calculate_net_wpm 1 25 30 = 8 :=
  C4_net_wpm_floor 1 25 30 (by norm_num) (by norm_num) (by norm_num)

/-- C8: for any wrapped lines and any non-negative index,
`calculate_row_column` succeeds exactly when the index is below the total
wrapped length, and otherwise fails with the
`ExitFailure(os.EX_IOERR, ...)` out-of-bounds error. -/
theorem C8_locate_out_of_bounds (wrapped_terminal_lines : List (List Char)) (index : Int)
    (h0 : 0 ≤ index) :
    ((∃ rc, calculate_row_column wrapped_terminal_lines index = .ok rc) ↔
      index < ((wrapped_terminal_lines.map List.length).sum : Int)) ∧
    (((wrapped_terminal_lines.map List.length).sum : Int) ≤ index →
      calculate_row_column wrapped_terminal_lines index =
        .error (.exitFailure EX_IOERR "Tried to access (row, column) out of terminal bounds")) := by
  constructor
  · constructor
    · rintro ⟨rc, hrc⟩
      by_contra hlt
      push_neg at hlt
      unfold calculate_row_column at hrc
      rw [calcRowColGo_err wrapped_terminal_lines index 0 hlt] at hrc
      exact Except.noConfusion hrc
    · intro hlt
      obtain ⟨n, rfl⟩ : ∃ n : Nat, index = (n : Int) := ⟨index.toNat, by omega⟩
      have hn : n < (wrapped_terminal_lines.map List.length).sum := by exact_mod_cast hlt
      obtain ⟨r, c, L, h1, -, -, -⟩ := calcRowColGo_ok wrapped_terminal_lines n 0 hn
      exact ⟨(0 + r, (c : Int)), h1⟩
  · intro hle
    exact calcRowColGo_err wrapped_terminal_lines index 0 hle

/-- Witness for C8 at lines `["ab"]`, index 1. -/
theorem C8_locate_out_of_bounds_witness :
    ((∃ rc, calculate_row_column [['a', 'b']] 1 = .ok rc) ↔
      (1 : Int) < ((([['a', 'b']] : List (List Char)).map List.length).sum : Int)) ∧
    (((([['a', 'b']] : List (List Char)).map List.length).sum : Int) ≤ 1 →
      calculate_row_column [['a', 'b']] 1 =
        .error (.exitFailure EX_IOERR "Tried to access (row, column) out of terminal bounds")) :=
  C8_locate_out_of_bounds [['a', 'b']] 1 (by norm_num)

/-- C5: for any text and terminal dimensions accepted by the wrapper and any
index below the total wrapped length, `calculate_row_column` returns a
`(row, column)` pair such that character `column` of line `row` is character
`i` of the concatenated wrapped text. -/
theorem C5_locate_consistency (text : List Char) (term_dims : TerminalDimensions)
    (lines : List (List Char)) (W : Nat) (i : Nat)
    (hw : wrap_terminal_lines text term_dims = .ok (lines, W)) (hi : i < W) :
    ∃ (r c : Nat) (L : List Char),
      calculate_row_column lines (i : Int) = .ok (r, (c : Int)) ∧
      lines[r]? = some L ∧ c < L.length ∧ L[c]? = lines.flatten[i]? := by
  have hsum := wrap_terminal_lines_sum hw
  obtain ⟨r, c, L, h1, h2, h3, h4⟩ := calcRowColGo_ok lines i 0 (by omega)
  rw [Nat.zero_add] at h1
  exact ⟨r, c, L, h1, h2, h3, h4⟩

/-- Witness for C5 at text `"ab"`, an 80x25 terminal, index 1. -/
theorem C5_locate_consistency_witness :
    ∃ (r c : Nat) (L : List Char),
      calculate_row_column [['a', 'b']] (((1 : Nat)) : Int) = .ok (r, (c : Int)) ∧
      ([['a', 'b']] : List (List Char))[r]? = some L ∧ c < L.length ∧
      L[c]? = ([['a', 'b']] : List (List Char)).flatten[(1 : Nat)]? :=
  C5_locate_consistency ['a', 'b'] ⟨24, 80⟩ [['a', 'b']] 2 1 rfl (by norm_num)

/-- C6: every session state reachable from the initial state by
keystroke-handling steps has a non-negative cursor index bounded by the text
length, and every recorded error index is non-negative and strictly below the
cursor index. -/
theorem C6_session_invariants (input_str : List Char) (s : Session)
    (hne : input_str ≠ []) (h : Reachable input_str s) :
    0 ≤ s.next_char_index ∧ s.next_char_index ≤ (input_str.length : Int) ∧
    ∀ e ∈ s.error_char_indices, 0 ≤ e ∧ e < s.next_char_index := by
  obtain ⟨-, h0, hle, herr⟩ := reachable_invariant h
  exact ⟨h0, hle, herr⟩

/-- Witness for C6 at text `"a"` and the initial state. -/
theorem C6_session_invariants_witness :
    0 ≤ (⟨0, []⟩ : Session).next_char_index ∧
    (⟨0, []⟩ : Session).next_char_index ≤ ((['a'] : List Char).length : Int) ∧
    ∀ e ∈ (⟨0, []⟩ : Session).error_char_indices, 0 ≤ e ∧ e < (⟨0, []⟩ : Session).next_char_index :=
  C6_session_invariants ['a'] ⟨0, []⟩ (by simp) Reachable.init

/-- C3: on a session state satisfying the data-model invariants, a backspace
keystroke with positive cursor index decrements the cursor by one and removes
that index from the error list if present (so it is no longer recorded); with
cursor index 0 it leaves the state unchanged; and in neither case can the
resulting cursor index equal the text length (the completion condition). -/
theorem C3_backspace_semantics (input_str : List Char) (s : Session)
    (hnd : s.error_char_indices.Nodup)
    (herr : ∀ e ∈ s.error_char_indices, 0 ≤ e ∧ e < s.next_char_index)
    (hle : s.next_char_index ≤ (input_str.length : Int))
    (hne : input_str ≠ []) :
    (0 < s.next_char_index →
      handle_keystroke input_str .backspace s =
        some ⟨s.next_char_index - 1, s.error_char_indices.erase (s.next_char_index - 1)⟩ ∧
      (s.next_char_index - 1) ∉ s.error_char_indices.erase (s.next_char_index - 1)) ∧
    (s.next_char_index = 0 → handle_keystroke input_str .backspace s = some s) ∧
    (∀ s', handle_keystroke input_str .backspace s = some s' →
      s'.next_char_index ≠ (input_str.length : Int)) := by
  have hlen1 : 1 ≤ input_str.length := by
    cases input_str with
    | nil => exact absurd rfl hne
    | cons a l => simp
  refine ⟨?_, ?_, ?_⟩
  · intro hpos
    have hmax : max 0 (s.next_char_index - 1) = s.next_char_index - 1 := by omega
    constructor
    · simp only [handle_keystroke, hmax]
      split
      · rfl
      · next hmem => rw [List.erase_of_not_mem hmem]
    · intro hmem
      exact ((List.Nodup.mem_erase_iff hnd).mp hmem).1 rfl
  · intro h0
    obtain ⟨nx, er⟩ := s
    simp only at h0
    subst h0
    simp only [handle_keystroke]
    have hnomem : max 0 ((0 : Int) - 1) ∉ er := by
      intro hm
      have hb := herr _ hm
      simp only at hb
      omega
    rw [if_neg hnomem]
    have hm0 : max (0 : Int) (0 - 1) = 0 := by omega
    rw [hm0]
  · intro s' hs'
    simp only [handle_keystroke] at hs'
    obtain rfl := Option.some.injEq .. |>.mp hs'
    simp only
    omega

/-- Witness for C3 at text `"ab"` and the state with cursor 1 and error
list `[0]`. -/
theorem C3_backspace_semantics_witness :
    (0 < (⟨1, [0]⟩ : Session).next_char_index →
      handle_keystroke ['a', 'b'] .backspace ⟨1, [0]⟩ =
        some ⟨(⟨1, [0]⟩ : Session).next_char_index - 1,
          (⟨1, [0]⟩ : Session).error_char_indices.erase
            ((⟨1, [0]⟩ : Session).next_char_index - 1)⟩ ∧
      ((⟨1, [0]⟩ : Session).next_char_index - 1) ∉
        (⟨1, [0]⟩ : Session).error_char_indices.erase
          ((⟨1, [0]⟩ : Session).next_char_index - 1)) ∧
    ((⟨1, [0]⟩ : Session).next_char_index = 0 →
      handle_keystroke ['a', 'b'] .backspace ⟨1, [0]⟩ = some ⟨1, [0]⟩) ∧
    (∀ s', handle_keystroke ['a', 'b'] .backspace ⟨1, [0]⟩ = some s' →
      s'.next_char_index ≠ ((['a', 'b'] : List Char).length : Int)) :=
  C3_backspace_semantics ['a', 'b'] ⟨1, [0]⟩ (by decide) (by decide) (by decide) (by decide)

/-- C10: whenever the wrapper accepts the terminal dimensions, the finish
predicate holds exactly when 60 seconds have elapsed or the cursor index has
reached `min (visible wrapped length) (text length)`; consequently it always
holds once 60 seconds have elapsed, and when the viewport is too small to
show the whole text it already holds at cursor index `W < length text`,
before the full text is typed. -/
theorem C10_finish_predicate (text : List Char) (term_dims : TerminalDimensions)
    (next : Int) (secs : ℚ) (lines : List (List Char)) (W : Nat)
    (hw : wrap_terminal_lines text term_dims = .ok (lines, W)) :
    is_typing_test_finished text term_dims next secs =
      .ok (decide (60 ≤ secs ∨ min (W : Int) (text.length : Int) ≤ next)) ∧
    (60 ≤ secs → is_typing_test_finished text term_dims next secs = .ok true) ∧
    (W < text.length →
      is_typing_test_finished text term_dims (W : Int) secs = .ok true ∧
      (W : Int) < (text.length : Int)) := by
  refine ⟨?_, ?_, ?_⟩
  · rw [is_typing_test_finished_eq hw next secs]
    congr 1
    by_cases h1 : (60 : ℚ) ≤ secs <;>
      by_cases h2 : min (W : Int) (text.length : Int) ≤ next <;>
        simp [h1, h2]
  · intro h60
    rw [is_typing_test_finished_eq hw next secs]
    simp [h60]
  · intro hWlen
    constructor
    · rw [is_typing_test_finished_eq hw (W : Int) secs]
      have hmin : min (W : Int) (text.length : Int) = (W : Int) := by omega
      simp [hmin]
    · exact_mod_cast hWlen

/-- Witness for C10 at text `"ab"`, an 80x25 terminal, cursor 0 and 0
elapsed seconds. -/
theorem C10_finish_predicate_witness :
    is_typing_test_finished ['a', 'b'] ⟨24, 80⟩ 0 0 =
      .ok (decide ((60 : ℚ) ≤ 0 ∨
        min ((2 : Nat) : Int) (((['a', 'b'] : List Char).length : Int)) ≤ 0)) ∧
    ((60 : ℚ) ≤ 0 → is_typing_test_finished ['a', 'b'] ⟨24, 80⟩ 0 0 = .ok true) ∧
    ((2 : Nat) < (['a', 'b'] : List Char).length →
      is_typing_test_finished ['a', 'b'] ⟨24, 80⟩ (((2 : Nat)) : Int) 0 = .ok true ∧
      (((2 : Nat)) : Int) < ((['a', 'b'] : List Char).length : Int)) :=
  C10_finish_predicate ['a', 'b'] ⟨24, 80⟩ 0 0 [['a', 'b']] 2 rfl

/-- C7: in every main-loop frame (drawn exactly when the finish check just
returned false), the cursor index passed to `calculate_row_column` equals its
own clamp to `[0, visible wrapped length]`, lies strictly below the visible
wrapped length, and the locate call succeeds. -/
theorem C7_cursor_in_bounds (text : List Char) (term_dims : TerminalDimensions)
    (next : Int) (secs : ℚ) (lines : List (List Char)) (W : Nat)
    (h0 : 0 ≤ next)
    (hw : wrap_terminal_lines text term_dims = .ok (lines, W))
    (hfin : is_typing_test_finished text term_dims next secs = .ok false) :
    max 0 (min next (W : Int)) = next ∧
    next < (W : Int) ∧
    ∃ rc, calculate_row_column lines next = .ok rc := by
  rw [is_typing_test_finished_eq hw next secs] at hfin
  have hb := Except.ok.injEq .. |>.mp hfin
  simp only [Bool.or_eq_false_iff, decide_eq_false_iff_not, not_le] at hb
  obtain ⟨-, hlt⟩ := hb
  have hltW : next < (W : Int) := lt_of_lt_of_le hlt (min_le_left _ _)
  refine ⟨by omega, hltW, ?_⟩
  have hsum := wrap_terminal_lines_sum hw
  obtain ⟨n, rfl⟩ : ∃ n : Nat, next = (n : Int) := ⟨next.toNat, by omega⟩
  have hn : n < (lines.map List.length).sum := by
    have hnW : n < W := by exact_mod_cast hltW
    omega
  obtain ⟨r, c, L, h1, -, -, -⟩ := calcRowColGo_ok lines n 0 hn
  exact ⟨(0 + r, (c : Int)), h1⟩

/-- Witness for C7 at text `"ab"`, an 80x25 terminal, cursor 0 and 0
elapsed seconds. -/
theorem C7_cursor_in_bounds_witness :
    max 0 (min (0 : Int) (((2 : Nat)) : Int)) = (0 : Int) ∧
    (0 : Int) < (((2 : Nat)) : Int) ∧
    ∃ rc, calculate_row_column [['a', 'b']] 0 = .ok rc :=
  C7_cursor_in_bounds ['a', 'b'] ⟨24, 80⟩ 0 0 [['a', 'b']] 2 (by norm_num) rfl rfl

/-- C1 counterexample: after typing the first character of `"ab"` the finish
check reports finished at 60 elapsed seconds even though the cursor index (1)
differs from the text length (2), so the finish report is not equivalent to
`next_index = length text`. -/
theorem C1_completion_counterexample :
    ¬ ∀ (text : List Char), text ≠ [] →
      ∀ (s s' : Session) (u : UserInput) (term_dims : TerminalDimensions) (secs : ℚ),
        Reachable text s → handle_keystroke text u s = some s' →
        (is_typing_test_finished text term_dims s'.next_char_index secs = .ok true ↔
          s'.next_char_index = (text.length : Int)) := by
  intro hall
  have h := hall ['a', 'b'] (by simp) ⟨0, []⟩ ⟨1, []⟩ (.char 97) ⟨24, 80⟩ 60
    Reachable.init rfl
  have h2 : is_typing_test_finished ['a', 'b'] ⟨24, 80⟩
      ((⟨1, []⟩ : Session).next_char_index) 60 = .ok true := rfl
  have h3 := h.mp h2
  norm_num at h3

/-- C1 amended: for a reachable state and a keystroke step, when fewer than 60
seconds have elapsed and the visible wrapped length covers the whole text, the
finish check after the step reports finished if and only if the new cursor
index equals the text length. -/
theorem C1_completion_iff (text : List Char) (s s' : Session) (u : UserInput)
    (term_dims : TerminalDimensions) (secs : ℚ) (lines : List (List Char)) (W : Nat)
    (hr : Reachable text s) (hstep : handle_keystroke text u s = some s')
    (hw : wrap_terminal_lines text term_dims = .ok (lines, W))
    (hcover : text.length ≤ W) (hsecs : secs < 60) :
    is_typing_test_finished text term_dims s'.next_char_index secs = .ok true ↔
      s'.next_char_index = (text.length : Int) := by
  obtain ⟨-, -, hle, -⟩ := reachable_invariant (Reachable.step hr hstep)
  rw [is_typing_test_finished_eq hw s'.next_char_index secs]
  have hmin : min (W : Int) (text.length : Int) = (text.length : Int) := by omega
  rw [hmin]
  constructor
  · intro h
    have hb := Except.ok.injEq .. |>.mp h
    simp only [Bool.or_eq_true, decide_eq_true_eq] at hb
    rcases hb with hb | hb
    · exact absurd hb (not_le.mpr hsecs)
    · omega
  · intro h
    rw [h]
    simp

/-- Witness for the amended C1 at text `"a"`, the first correct keystroke, an
80x25 terminal and 0 elapsed seconds. -/
theorem C1_completion_iff_witness :
    is_typing_test_finished ['a'] ⟨24, 80⟩ ((⟨1, []⟩ : Session).next_char_index) 0 = .ok true ↔
      (⟨1, []⟩ : Session).next_char_index = ((['a'] : List Char).length : Int) :=
  C1_completion_iff ['a'] ⟨0, []⟩ ⟨1, []⟩ (.char 97) ⟨24, 80⟩ 0 [['a']] 1
    Reachable.init rfl rfl (by norm_num) (by norm_num)

/-- C2 counterexample: the newline in `"a\nb"` is munged to a space before
wrapping, so concatenating the wrapped lines of this text (at columns 80,
where nothing is truncated) yields `"a b"`, not the original text. -/
theorem C2_round_trip_counterexample :
    (1 : Nat) ≤ 80 ∧
    wrap_terminal_lines ['a', '\n', 'b'] ⟨24, 80⟩ = .ok ([['a', ' ', 'b']], 3) ∧
    textwrap_wrap 80 ['a', '\n', 'b'] = .ok [['a', ' ', 'b']] ∧
    ([['a', ' ', 'b']] : List (List Char)).flatten ≠ ['a', '\n', 'b'] :=
  ⟨by norm_num, rfl, rfl, by decide⟩

/-- C2 amended: for every text whose whitespace is plain spaces (as the
program's input normalization guarantees) and every column count `≥ 1`, the
untruncated wrap reproduces the text exactly on concatenation and bounds
every line by the column count; `wrap_terminal_lines` then returns the first
`rows` of these lines together with their total length. -/
theorem C2_wrap_round_trip (text : List Char) (columns : Nat) (hcols : 1 ≤ columns)
    (hws : ∀ c ∈ text, isPyWs c = true → c = ' ') :
    ∃ lines : List (List Char),
      textwrap_wrap columns text = .ok lines ∧
      lines.flatten = text ∧
      (∀ l ∈ lines, l.length ≤ columns) ∧
      ∀ term_dims : TerminalDimensions, term_dims.columns = columns →
        wrap_terminal_lines text term_dims =
          .ok (lines.take term_dims.rows, ((lines.take term_dims.rows).map List.length).sum) := by
  refine ⟨wrapChunks columns (splitChunks (mungeWhitespace text)), ?_, ?_, ?_, ?_⟩
  · exact textwrap_wrap_eq columns hcols text
  · rw [wrapChunks_flatten, splitChunks_flatten, mungeWhitespace_eq_self text hws]
  · exact wrapChunks_length_le columns hcols _
  · intro term_dims hd
    subst hd
    unfold wrap_terminal_lines
    rw [textwrap_wrap_eq term_dims.columns hcols text]
    rfl

/-- Witness for the amended C2 at text `"cat dog"` and 4 columns. -/
theorem C2_wrap_round_trip_witness :
    ∃ lines : List (List Char),
      textwrap_wrap 4 ['c', 'a', 't', ' ', 'd', 'o', 'g'] = .ok lines ∧
      lines.flatten = ['c', 'a', 't', ' ', 'd', 'o', 'g'] ∧
      (∀ l ∈ lines, l.length ≤ 4) ∧
      ∀ term_dims : TerminalDimensions, term_dims.columns = 4 →
        wrap_terminal_lines ['c', 'a', 't', ' ', 'd', 'o', 'g'] term_dims =
          .ok (lines.take term_dims.rows, ((lines.take term_dims.rows).map List.length).sum) :=
  C2_wrap_round_trip ['c', 'a', 't', ' ', 'd', 'o', 'g'] 4 (by norm_num) (by decide)
